import Mathlib

/-!
Verification development for the finalize-execution engine of an Aleo ledger
explorer.  The definitions below are a shallow embedding of the Python code in
`src/interpreter/interpreter.py` and `src/api/execute_routes.py`:

* Python exceptions become an explicit error type `Err`, and every fallible
  function returns `Except Err _`.  The distinct Python exception classes
  (`TypeError`, `RuntimeError`, `NotImplementedError`, `IndexError`, `KeyError`,
  and the interpreter's own `ExecuteError`) are kept as distinct constructors,
  because `finalize_block` catches `TypeError` only and `finalize_execute`
  catches `ExecuteError` only.
* The external instruction interpreter `execute_finalizer`
  (`interpreter/finalizer.py`, an out-of-scope collaborator that the spec
  declares "synchronous, pure given its inputs") is a function parameter `EF`
  of the embedding; its call sites record the exact arguments the Python code
  passes (transition-id order, rejected set, program, function, inputs, which
  local cache is used, and the state-change flag).
* The database is a journal: `execute_operations` appends the applied
  operations; the process-wide `global_mapping_cache` is an abstract list that
  the code only ever clears, so `clear()` becomes `[]`.
* Identifier hashes (`cached_get_mapping_id`) are pure functions of their
  arguments per the spec, modelled as string tagging.
-/

/-! ## Basic identifier types -/

abbrev TID := Nat
abbrev Ident := String
abbrev ProgId := String

/-- Modelled from the spec: `cached_get_mapping_id` (external `aleo_types.cached`,
not under `src/`) — "mapping identifier is a pure function of (program id,
mapping name)".  We use the injective encoding `pid ++ "/" ++ name`. -/
def mappingId (pid : ProgId) (m : Ident) : String := pid ++ "/" ++ m

/-! ## Finalize operations

`FinalizeOperation.Type` from `aleo_types` has the five members referenced in
the sources (`execute_routes.py` names all five).  The expected operations of a
confirmed transaction (`confirmed_transaction.finalize`) are typed objects with
per-kind fields; the actual operations produced by the engine are dictionaries,
modelled as a record with every field the code reads. -/

inductive FinalizeOpType where
  | initMapping
  | insertKeyValue
  | updateKeyValue
  | removeKeyValue
  | removeMapping
deriving DecidableEq

/-- The Python enum member name (`operation_type.name`). -/
def FinalizeOpType.pyName : FinalizeOpType → String
  | .initMapping => "InitializeMapping"
  | .insertKeyValue => "InsertKeyValue"
  | .updateKeyValue => "UpdateKeyValue"
  | .removeKeyValue => "RemoveKeyValue"
  | .removeMapping => "RemoveMapping"

/-- Expected operation: one entry of `confirmed_transaction.finalize`.  The
validation loop in `finalize_block` reads `e.type`, `e.mapping_id`, and (per
`isinstance` dispatch) `e.key_id` / `e.value_id`. -/
inductive ExpectedOp where
  | initMapping (mapping_id : String)
  | insertKeyValue (mapping_id : String)
  | updateKeyValue (mapping_id key_id value_id : String)
  | removeKeyValue (mapping_id key_id : String)
  | removeMapping (mapping_id : String)
deriving DecidableEq

def ExpectedOp.typeOf : ExpectedOp → FinalizeOpType
  | .initMapping _ => .initMapping
  | .insertKeyValue _ => .insertKeyValue
  | .updateKeyValue _ _ _ => .updateKeyValue
  | .removeKeyValue _ _ => .removeKeyValue
  | .removeMapping _ => .removeMapping

def ExpectedOp.mappingId : ExpectedOp → String
  | .initMapping m => m
  | .insertKeyValue m => m
  | .updateKeyValue m _ _ => m
  | .removeKeyValue m _ => m
  | .removeMapping m => m

/-- Actual operation: the dictionaries built by `finalize_deploy`,
`_execute_public_fee` / `execute_finalizer`, and consumed by the validation
loop and `execute_operations`.  Fields that a given kind does not carry are
the empty string. -/
structure ActualOp where
  type : FinalizeOpType
  mapping_id : String := ""
  key_id : String := ""
  value_id : String := ""
  program_id : String := ""
  mapping : String := ""
deriving DecidableEq

/-- The `InitializeMapping` dictionary synthesized by `finalize_deploy` for one
declared mapping. -/
def initOpOf (pid : ProgId) (m : Ident) : ActualOp :=
  { type := .initMapping
    mapping_id := mappingId pid m
    program_id := pid
    mapping := m }

/-! ## Errors

One constructor per Python exception class that the sources raise or catch. -/

/-- `ExecuteError` from `interpreter/finalizer.py`: carries the failing
transition id (possibly `None`), the failing instruction text, and the
exception message (`str(e)`). -/
structure ExecErr where
  transition_id : Option TID
  instruction : String
  msg : String
deriving DecidableEq

inductive Err where
  | typeError (msg : String)
  | runtimeError (msg : String)
  | notImplementedError
  | indexError
  | keyError
  | executeError (e : ExecErr)
deriving DecidableEq

/-! ## Pairwise validation (`finalize_block`, the `for e, o in zip(...)` loop)

Python raises `TypeError` for the four field mismatches (caught by the
`except TypeError` handler, which clears the process-wide cache and re-raises)
and `NotImplementedError` for an expected operation of an unhandled kind
(which is *not* caught, so the cache is not cleared for it). -/

def validatePairs : List ExpectedOp → List ActualOp → Except Err Unit
  | [], _ => .ok ()
  | _ :: _, [] => .ok ()
  | e :: es, o :: os =>
    if e.typeOf ≠ o.type then .error (.typeError "invalid finalize operation type")
    else if e.mappingId ≠ o.mapping_id then .error (.typeError "invalid finalize mapping id")
    else match e with
      | .initMapping _ => validatePairs es os
      | .updateKeyValue _ k v =>
        if k ≠ o.key_id ∨ v ≠ o.value_id then
          .error (.typeError "invalid finalize update key operation")
        else validatePairs es os
      | .removeKeyValue _ k =>
        if k ≠ o.key_id then .error (.typeError "invalid finalize remove key operation")
        else validatePairs es os
      | _ => .error .notImplementedError

/-- The pairwise condition exactly as the specification words it: operation
kind matches, mapping identifier matches, for `UpdateKeyValue` additionally
key and value identifiers match, for `RemoveKeyValue` the key identifier
matches, and `InitializeMapping` needs no further field checks.  Written from
the spec's sentence, to be compared with `validatePairs` from the source. -/
def specPairOk (e : ExpectedOp) (o : ActualOp) : Bool :=
  decide (e.typeOf = o.type) && decide (e.mappingId = o.mapping_id) &&
    (match e with
     | .updateKeyValue _ k v => decide (k = o.key_id) && decide (v = o.value_id)
     | .removeKeyValue _ k => decide (k = o.key_id)
     | _ => true)

/-- The kinds to which the validation loop's `isinstance` dispatch assigns a
field check (everything except `InsertKeyValue` and `RemoveMapping`). -/
def handledKind (e : ExpectedOp) : Bool :=
  match e with
  | .insertKeyValue _ => false
  | .removeMapping _ => false
  | _ => true

/-! ## Programs, functions, transitions

Only the structure the interpreter reads is modelled.  A function body is its
list of instructions plus the optional finalize scope; of the instructions,
`_trace_execution` inspects call instructions with a locator operator (the
last destination register receives the future), async instructions (whose
operand positions become the finalize input registers), and ignores the rest.
A call graph node's qualified name `f"{program}/{function}"` is kept as the
pair of its components (identifiers contain no `/`, so this is the same
data). -/

inductive Operand where
  | register (locator : Nat)
  | other
deriving DecidableEq

inductive Instr where
  | callLocator (pid : ProgId) (func : Ident) (futureDest : Nat)
  | callInternal
  | asyncInstr (operands : List Operand)
  | otherInstr
deriving DecidableEq

inductive Command where
  | awaitCmd (locator : Nat)
  | otherCmd
deriving DecidableEq

structure FinalizeScope where
  commands : List Command
deriving DecidableEq

structure Func where
  instructions : List Instr
  finalize : Option FinalizeScope
deriving DecidableEq

structure Program where
  pid : ProgId
  functions : List (Ident × Func)
  mappings : List Ident
deriving DecidableEq

/-- First-match association lookup (Python dict access on identifier keys). -/
def alookup {κ : Type} {α : Type} [DecidableEq κ] : List (κ × α) → κ → Option α
  | [], _ => none
  | (k, v) :: rest, k' => if k = k' then some v else alookup rest k'

/-- The program store, standing for `get_program(db, ...)` from
`util.global_cache` (out-of-scope collaborator: fetch a program's definition
by id). -/
abbrev Env := List (ProgId × Program)

def getProgram (env : Env) (pid : ProgId) : Option Program := alookup env pid

/-- A future argument (`aleo_types.Argument`); payloads are abstract tokens. -/
inductive Argument where
  | plaintextArg (payload : Nat)
  | futureArg (payload : Nat)
  | otherArg
deriving DecidableEq

/-- A finalize input value (`aleo_types.Value`). -/
inductive Value where
  | plaintextValue (payload : Nat)
  | futureValue (payload : Nat)
deriving DecidableEq

/-- A future (`aleo_types.Future`): deferred call record resolved during
finalize. -/
structure Future where
  program_id : ProgId
  function_name : Ident
  arguments : List Argument
deriving DecidableEq

inductive TransitionOutput where
  | future (value : Option Future)
  | otherOutput
deriving DecidableEq

structure Transition where
  id : TID
  program_id : ProgId
  function_name : Ident
  outputs : List TransitionOutput
deriving DecidableEq

/-! ## Call graph (`Program.call_graph`, spec §4.1 step 1) -/

/-- One node of the static call graph: position index into the transaction's
transition list, qualified name of the called function, and the nested calls
(`LocalCallGraphNode` without the transition id, which `_trace_execution`
attaches later). -/
inductive CGNode : Type where
  | node (index : Nat) (name : ProgId × Ident) (calls : List CGNode) : CGNode

def CGNode.index : CGNode → Nat
  | .node i _ _ => i

def CGNode.name : CGNode → ProgId × Ident
  | .node _ n _ => n

def CGNode.calls : CGNode → List CGNode
  | .node _ _ c => c

/-- Modelled from the spec: `Program.call_graph` lives in the external
`aleo_types` library (not under `src/`).  Spec §4.1: "Obtain the static call
graph for the root function (enumerates, per non-finalize instruction, every
nested call to another program's function that itself has a finalizer,
preserving call order)", with each node's index being its "position index into
the transition list" (transitions are ordered depth-first with every callee
before its caller, the root transition last).  Fuel bounds the recursion
through called programs; it decreases on every step so the function is
structurally recursive and computable by the kernel. -/
def callGraphList (env : Env) : Nat → List Instr → Nat → Except Err (List CGNode × Nat)
  | _, [], counter => .ok ([], counter)
  | 0, _ :: _, _ => .error (.runtimeError "recursion limit")
  | fuel + 1, instr :: rest, counter =>
    match instr with
    | .callLocator pid f _ =>
      match getProgram env pid with
      | none => .error (.runtimeError "program not found")
      | some cp =>
        match alookup cp.functions f with
        | none => .error (.runtimeError "function not found")
        | some cf =>
          match cf.finalize with
          | none => callGraphList env fuel rest counter
          | some _ => do
            let (children, counter') ← callGraphList env fuel cf.instructions counter
            let (siblings, counter'') ← callGraphList env fuel rest (counter' + 1)
            .ok (CGNode.node counter' (pid, f) children :: siblings, counter'')
    | _ => callGraphList env fuel rest counter

/-- Modelled from the spec: `program.call_graph(function_name, db)` —
the static call graph of one function (see `callGraphList`). -/
def call_graph (fuel : Nat) (env : Env) (program : Program) (fn : Ident) :
    Except Err (List CGNode) :=
  match alookup program.functions fn with
  | none => .error .keyError
  | some f => (callGraphList env fuel f.instructions 0).map (·.1)

/-! ## `_trace_execution` (src/interpreter/interpreter.py) -/

/-- Register maps used by `_trace_execution`: `future_register_map` and
`finalize_register_map`, keyed by register locator / parameter index; the
values are call-graph nodes already zipped with their concrete transition id.
Python dict assignment overwrites, which first-match lookup over a
cons-on-write list reproduces. -/
abbrev RegMap := List (Nat × (CGNode × TID))

/-- `for c in node["calls"]: c["transition_id"] = transition_ids[c["index"]]` —
attach the concrete transition id to every child node (Python raises
`IndexError` when the index is out of range). -/
def assignTids (tids : List TID) : List CGNode → Except Err (List (CGNode × TID))
  | [] => .ok []
  | c :: rest =>
    match tids[c.index]? with
    | none => .error .indexError
    | some t => do
      let r ← assignTids tids rest
      .ok ((c, t) :: r)

/-- The inner loop of the async-instruction case: enumerate the operands; every
register operand holding a recorded future propagates its call node to the
parameter index that receives it. -/
def asyncScan (fut : RegMap) : List Operand → Nat → RegMap → RegMap
  | [], _, fin => fin
  | .register loc :: rest, i, fin =>
    (match alookup fut loc with
     | some child => asyncScan fut rest (i + 1) ((i, child) :: fin)
     | none => asyncScan fut rest (i + 1) fin)
  | .other :: rest, i, fin => asyncScan fut rest (i + 1) fin

/-- The instruction walk of `_trace_execution`: build `future_register_map`
(future destination register ↦ call node) and `finalize_register_map`
(finalize parameter index ↦ call node), counting locator-call instructions
with `call_index` and checking each against the static call graph. -/
def instrWalk (env : Env) (children : List (CGNode × TID)) :
    List Instr → Nat → RegMap → RegMap → Except Err (RegMap × RegMap)
  | [], _, fut, fin => .ok (fut, fin)
  | .callLocator pid f dest :: rest, ci, fut, fin =>
    (match getProgram env pid with
     | none => .error (.runtimeError "program not found")
     | some cp =>
       match alookup cp.functions f with
       | none => .error .keyError
       | some cf =>
         match cf.finalize with
         | none => instrWalk env children rest (ci + 1) fut fin
         | some _ =>
           match children[ci]? with
           | none => .error .indexError
           | some child =>
             if (cp.pid, f) ≠ child.1.name then .error (.runtimeError "call analysis failed")
             else instrWalk env children rest (ci + 1) ((dest, child) :: fut) fin)
  | .asyncInstr operands :: rest, ci, fut, fin =>
    instrWalk env children rest ci fut (asyncScan fut operands 0 fin)
  | _ :: rest, ci, fut, fin => instrWalk env children rest ci fut fin

/-- The await walk of `_trace_execution`, parameterised by the recursive call
`rec` into the awaited child's own function.  For each `await` command: resolve
the awaited register to its call node (a structural fault if unresolved),
append the child's transition id to the order, and trace the child to
completion before the next command is processed. -/
def traceAwaitsWith (rec : CGNode × TID → List TID → Except Err (List TID)) :
    List Command → RegMap → List TID → Except Err (List TID)
  | [], _, acc => .ok acc
  | .awaitCmd loc :: rest, fin, acc =>
    (match alookup fin loc with
     | none => .error (.runtimeError "invalid await command")
     | some child => do
       let acc' ← rec child (acc ++ [child.2])
       traceAwaitsWith rec rest fin acc')
  | .otherCmd :: rest, fin, acc => traceAwaitsWith rec rest fin acc

/-- One unfolding of `_trace_execution`, with the recursion into called
functions supplied as `rec'`: attach transition ids to the node's children,
return unchanged if the function has no finalize scope, otherwise build the
register maps and walk the finalize commands. -/
def traceStep (env : Env) (tids : List TID)
    (rec' : Program → Ident → CGNode → List TID → Except Err (List TID))
    (program : Program) (fn : Ident) (node : CGNode) (asyncOrder : List TID) :
    Except Err (List TID) := do
  let children ← assignTids tids node.calls
  match alookup program.functions fn with
  | none => .error .keyError
  | some function =>
    match function.finalize with
    | none => .ok asyncOrder
    | some fin => do
      let maps ← instrWalk env children function.instructions 0 [] []
      traceAwaitsWith
        (fun child acc =>
          match getProgram env child.1.name.1 with
          | none => .error (.runtimeError "program not found")
          | some cp =>
            match alookup cp.functions child.1.name.2 with
            | none => .error (.runtimeError "function not found")
            | some _ => rec' cp child.1.name.2 child.1 acc)
        fin.commands maps.2 asyncOrder

/-- `_trace_execution(db, transition_ids, program, function_name, node,
async_order)`.  Python recursion is unbounded (bounded in practice by the call
depth; a cycle would raise `RecursionError`), so the embedding carries fuel. -/
def _trace_execution (env : Env) (tids : List TID) :
    Nat → Program → Ident → CGNode → List TID → Except Err (List TID)
  | 0 => fun _ _ _ _ => .error (.runtimeError "recursion limit")
  | fuel + 1 => traceStep env tids (_trace_execution env tids fuel)

/-- `build_async_order(db, transition_ids, program, function_name)`: obtain the
static call graph, make the root node (index `len(transition_ids) - 1`, empty
name), start the order with the outermost transition id
(`transition_ids[-1]`, an `IndexError` on an empty list), and trace. -/
def build_async_order (fuel : Nat) (env : Env) (tids : List TID)
    (program : Program) (fn : Ident) : Except Err (List TID) := do
  let cg ← call_graph fuel env program fn
  let root : CGNode := .node (tids.length - 1) ("", "") cg
  match tids.getLast? with
  | none => .error .indexError
  | some last => _trace_execution env tids fuel program fn root [last]

/-! ## Transactions -/

/-- A fee (`aleo_types.Fee`): the interpreter only reads its transition. -/
structure Fee where
  transition : Transition
deriving DecidableEq

/-- An execution (`aleo_types.Execution`): ordered transitions, root last. -/
structure Execution where
  transitions : List Transition
deriving DecidableEq

/-- A transaction, with the shapes `finalize_deploy` / `finalize_execute`
dispatch on: `DeployTransaction` (fee and deployed program),
`FeeTransaction` (fee only), `ExecuteTransaction` (execution and optional
fee). -/
inductive Transaction where
  | deploy (fee : Fee) (deployment : Program)
  | feeTx (fee : Fee)
  | execute (execution : Execution) (fee : Option Fee)
deriving DecidableEq

/-- The rejected payload of a `RejectedExecute` confirmed transaction. -/
inductive Rejected where
  | rejectedExecution (execution : Execution)
  | rejectedDeployment
deriving DecidableEq

/-- A confirmed transaction (`ConfirmedTransaction.Type` has exactly these
four members); each carries its expected finalize operations
(`confirmed_transaction.finalize`). -/
inductive CTx where
  | acceptedDeploy (finalize : List ExpectedOp) (transaction : Transaction)
  | rejectedDeploy (finalize : List ExpectedOp) (transaction : Transaction)
  | acceptedExecute (finalize : List ExpectedOp) (transaction : Transaction)
  | rejectedExecute (finalize : List ExpectedOp) (transaction : Transaction)
      (rejected : Rejected)
deriving DecidableEq

def CTx.finalize : CTx → List ExpectedOp
  | .acceptedDeploy f _ => f
  | .rejectedDeploy f _ => f
  | .acceptedExecute f _ => f
  | .rejectedExecute f _ _ => f

def CTx.transaction : CTx → Transaction
  | .acceptedDeploy _ t => t
  | .rejectedDeploy _ t => t
  | .acceptedExecute _ t => t
  | .rejectedExecute _ t _ => t

def CTx.isRejectedExecute : CTx → Bool
  | .rejectedExecute _ _ _ => true
  | _ => false

def CTx.isDeployKind : CTx → Bool
  | .acceptedDeploy _ _ => true
  | .rejectedDeploy _ _ => true
  | _ => false

/-! ## The Finalizer Adapter (`execute_finalizer`, external collaborator)

Spec §6: "synchronous, pure given its inputs".  The embedding passes it in as
a function from the recorded call arguments to either an operation list or an
`ExecuteError`. -/

/-- The arguments `execute_finalizer` is called with.  `localIsGlobal` records
which transaction-local cache the call receives: `true` when the process-wide
cache itself is passed as the local cache (accepted execute), `false` when a
fresh empty dict is passed (deploy fee, rejected execute). -/
structure EFCall where
  order : List TID
  rejected : List TID
  program : Program
  function_name : Ident
  inputs : List Value
  localIsGlobal : Bool
  allow_state_change : Bool

/-- The Finalizer Adapter as a pure function (spec §6). -/
abbrev EF := EFCall → Except ExecErr (List ActualOp)

/-- `load_input_from_arguments`: plaintext arguments become plaintext values,
future arguments future values, anything else raises `NotImplementedError`. -/
def load_input_from_arguments : List Argument → Except Err (List Value)
  | [] => .ok []
  | .plaintextArg p :: rest => do
    let r ← load_input_from_arguments rest
    .ok (.plaintextValue p :: r)
  | .futureArg p :: rest => do
    let r ← load_input_from_arguments rest
    .ok (.futureValue p :: r)
  | .otherArg :: _ => .error .notImplementedError

/-- `_execute_public_fee`: demand the builtin public fee function of the native
credits program, unwrap the future carried by the first output, resolve its
arguments, and run it as a single-call finalize scope (single-element
transition-id order, empty already-rejected set).  An `ExecuteError` from the
adapter propagates as such. -/
def _execute_public_fee (env : Env) (ef : EF) (fee_transition : Transition)
    (localIsGlobal : Bool) (allow_state_change : Bool) : Except Err (List ActualOp) :=
  if fee_transition.program_id ≠ "credits.aleo" ∨ fee_transition.function_name ≠ "fee_public" then
    .error (.typeError "not a fee transition")
  else
    match fee_transition.outputs.head? with
    | none => .error .indexError
    | some output =>
      match output with
      | .otherOutput => .error (.typeError "invalid fee transition output")
      | .future futureOpt =>
        match futureOpt with
        | none => .error (.runtimeError "invalid fee transition output")
        | some future =>
          match getProgram env future.program_id with
          | none => .error (.runtimeError "program not found")
          | some program => do
            let inputs ← load_input_from_arguments future.arguments
            (ef { order := [fee_transition.id]
                  rejected := []
                  program := program
                  function_name := future.function_name
                  inputs := inputs
                  localIsGlobal := localIsGlobal
                  allow_state_change := allow_state_change }).mapError .executeError

/-- `finalize_deploy`: run the public fee (when the bundled fee transition is
`fee_public`) against the process-wide cache with a fresh local cache and
state changes permitted; for an accepted deploy append one
`InitializeMapping` operation per mapping of the deployed program, in
declaration order, with no rejection reason; otherwise report the generic
unavailable-detail reason. -/
def finalize_deploy (env : Env) (ef : EF) (ct : CTx) :
    Except Err (List ExpectedOp × List ActualOp × Option String) := do
  let transaction := ct.transaction
  let transition ← match transaction with
    | .deploy fee _ => Except.ok fee.transition
    | .feeTx fee => Except.ok fee.transition
    | _ => Except.error Err.notImplementedError
  let operations ←
    if transition.function_name = "fee_public" then
      _execute_public_fee env ef transition false true
    else
      Except.ok ([] : List ActualOp)
  match ct with
  | .acceptedDeploy expected _ =>
    let program ← match transaction with
      | .deploy _ deployment => Except.ok deployment
      | _ => Except.error (Err.runtimeError "attribute error")
    Except.ok (expected, operations ++ program.mappings.map (initOpOf program.pid), none)
  | _ =>
    Except.ok (ct.finalize, operations, some "(detailed reason not available)")

/-! ## `finalize_execute` (src/interpreter/interpreter.py) -/

/-- First index satisfying a predicate. -/
def findIdxB {α : Type} (p : α → Bool) : List α → Option Nat
  | [] => none
  | x :: rest =>
    if p x then some 0
    else (findIdxB p rest).map (· + 1)

/-- The index lookup in the `except ExecuteError` handler: find the first
transition whose id equals the error's transition id (no match on `None`),
then `execution.transitions.index(ts)` — the first position holding an equal
transition. -/
def findRejectedIndex (transitions : List Transition) (etid : Option TID) : Option Nat :=
  match transitions.find? (fun ts => decide (etid = some ts.id)) with
  | none => none
  | some ts => findIdxB (fun t => decide (t = ts)) transitions

/-- The rejection reason string
`f"execute error: {e}, at transition #{index}, instruction \"{e.instruction}\""`. -/
def mkExecuteReason (e : ExecErr) (index : Nat) : String :=
  "execute error: " ++ e.msg ++ ", at transition #" ++ toString index ++
    ", instruction \"" ++ e.instruction ++ "\""

/-- The rejection reason string for a failing fee transition,
`f"execute error: {e}, at fee transition, instruction \"{e.instruction}\""`. -/
def mkFeeReason (e : ExecErr) : String :=
  "execute error: " ++ e.msg ++ ", at fee transition, instruction \"" ++
    e.instruction ++ "\""

/-- `finalize_execute`: select the accepted/rejected path, trace and execute
the outermost future's finalize order (recovering an adapter `ExecuteError`
into a rejection reason and discarding the partial operations), reconcile a
rejected execution that unexpectedly succeeded through its fee transition,
and finally execute a present public fee with state changes permitted. -/
def finalize_execute (fuel : Nat) (env : Env) (ef : EF) (ct : CTx) :
    Except Err (List ExpectedOp × List ActualOp × Option String) := do
  let expected_operations := ct.finalize
  let info ← match ct with
    | .acceptedExecute _ tx =>
      match tx with
      | .execute execution fee => Except.ok (execution, true, true, fee)
      | _ => Except.error (Err.typeError "invalid execute transaction")
    | .rejectedExecute _ tx rejected =>
      match rejected with
      | .rejectedExecution execution =>
        match tx with
        | .feeTx fee => Except.ok (execution, false, false, some fee)
        | _ => Except.error (Err.typeError "invalid rejected execute transaction")
      | _ => Except.error (Err.typeError "invalid rejected execute transaction")
    | _ => Except.error Err.notImplementedError
  let (execution, allow_state_change, localIsGlobal, fee) := info
  let transition ← match execution.transitions.getLast? with
    | none => Except.error Err.indexError
    | some t => Except.ok t
  let step₁ ←
    if transition.outputs.length ≠ 0 then
      match transition.outputs.getLast? with
      | none => Except.error Err.indexError
      | some maybe_future_output =>
        match maybe_future_output with
        | .otherOutput => Except.ok (([] : List ActualOp), (none : Option String))
        | .future future_option =>
          match future_option with
          | none => Except.error (Err.runtimeError "invalid future is None")
          | some future =>
            match getProgram env future.program_id with
            | none => Except.error (Err.runtimeError "program not found")
            | some program => do
              let transition_ids := execution.transitions.map (·.id)
              let async_order ← build_async_order fuel env transition_ids program future.function_name
              let inputs ← load_input_from_arguments future.arguments
              match ef { order := async_order
                         rejected := []
                         program := program
                         function_name := future.function_name
                         inputs := inputs
                         localIsGlobal := localIsGlobal
                         allow_state_change := allow_state_change } with
              | .ok ops => Except.ok (ops, (none : Option String))
              | .error e =>
                match findRejectedIndex execution.transitions e.transition_id with
                | none => Except.error (Err.runtimeError "rejected transition not found in transaction")
                | some index => Except.ok (([] : List ActualOp), some (mkExecuteReason e index))
    else
      Except.ok (([] : List ActualOp), (none : Option String))
  let (operations, reject_reason) := step₁
  let step₂ ←
    if ct.isRejectedExecute && reject_reason.isNone then
      match fee with
      | none => Except.error (Err.runtimeError "cast failure")
      | some f =>
        if f.transition.function_name = "fee_public" then
          match _execute_public_fee env ef f.transition localIsGlobal allow_state_change with
          | .error (.executeError e) =>
            Except.ok (([] : List ActualOp), some (mkFeeReason e))
          | .error e => Except.error e
          | .ok _ => Except.ok (([] : List ActualOp), some "unknown reason")
        else
          Except.ok (([] : List ActualOp), some "unknown reason")
    else
      Except.ok (operations, reject_reason)
  let (operations, reject_reason) := step₂
  let operations ←
    match fee with
    | some f =>
      if f.transition.function_name = "fee_public" then
        match _execute_public_fee env ef f.transition localIsGlobal true with
        | .ok feeOps => Except.ok (operations ++ feeOps)
        | .error e => Except.error e
      else
        Except.ok operations
    | none => Except.ok operations
  Except.ok (expected_operations, operations, reject_reason)

/-! ## `finalize_block` and `execute_operations` -/

/-- The process-wide state `finalize_block` touches: the process-wide mapping
cache (`global_mapping_cache`, an abstract content token list — the code under
verification only ever clears it) and the storage journal of applied
operations (the effect of the `db.initialize_mapping` /
`db.update_mapping_key_value` / `db.remove_mapping_key_value` calls issued by
`execute_operations`, in order). -/
structure BState where
  cache : List Nat
  committed : List ActualOp
deriving DecidableEq

/-- `execute_operations`: apply one operation list op by op, appending each
storage mutation to the journal; an operation of a kind other than
`InitializeMapping` / `UpdateKeyValue` / `RemoveKeyValue` raises
`NotImplementedError` (after the mutations already issued). -/
def execute_operations (journal : List ActualOp) :
    List ActualOp → List ActualOp × Except Err Unit
  | [] => (journal, .ok ())
  | op :: rest =>
    match op.type with
    | .initMapping => execute_operations (journal ++ [op]) rest
    | .updateKeyValue => execute_operations (journal ++ [op]) rest
    | .removeKeyValue => execute_operations (journal ++ [op]) rest
    | _ => (journal, .error .notImplementedError)

/-- The per-transaction dispatch of `finalize_block`: deploys (accepted or
rejected) go to `finalize_deploy`, executes to `finalize_execute`. -/
def txFinalizer (fuel : Nat) (env : Env) (ef : EF) (ct : CTx) :
    Except Err (List ExpectedOp × List ActualOp × Option String) :=
  if ct.isDeployKind then finalize_deploy env ef ct
  else finalize_execute fuel env ef ct

/-- The loop body of `finalize_block` for one confirmed transaction: finalize
it, require equal lengths of expected and actual operations (a `TypeError`
that is *not* inside the `except TypeError` region, so the cache survives),
validate pairwise (a `TypeError` mismatch clears the process-wide cache
before re-raising; the `NotImplementedError` of an unhandled expected kind is
not caught and leaves the cache), then commit via `execute_operations`. -/
def stepTx (fuel : Nat) (env : Env) (ef : EF) (ct : CTx) (s : BState) :
    BState × Except Err (Option String) :=
  match txFinalizer fuel env ef ct with
  | .error e => (s, .error e)
  | .ok (expected_operations, operations, reject_reason) =>
    if expected_operations.length ≠ operations.length then
      (s, .error (.typeError "invalid finalize operation length"))
    else
      match validatePairs expected_operations operations with
      | .error (.typeError m) => ({ s with cache := [] }, .error (.typeError m))
      | .error e => (s, .error e)
      | .ok _ =>
        match execute_operations s.committed operations with
        | (journal, .error e) => ({ s with committed := journal }, .error e)
        | (journal, .ok _) => ({ s with committed := journal }, .ok reject_reason)

/-- The transaction loop of `finalize_block`, accumulating the per-transaction
rejection reasons; a fault stops the loop and propagates with the state the
faulting step left behind. -/
def finalizeBlockLoop (fuel : Nat) (env : Env) (ef : EF) :
    List CTx → BState → List (Option String) → BState × Except Err (List (Option String))
  | [], s, reasons => (s, .ok reasons)
  | ct :: rest, s, reasons =>
    match stepTx fuel env ef ct s with
    | (s', .error e) => (s', .error e)
    | (s', .ok reason) => finalizeBlockLoop fuel env ef rest s' (reasons ++ [reason])

/-- `finalize_block(db, cur, block)`: one rejection-reason entry per confirmed
transaction, in block order. -/
def finalize_block (fuel : Nat) (env : Env) (ef : EF) (txs : List CTx) (s : BState) :
    BState × Except Err (List (Option String)) :=
  finalizeBlockLoop fuel env ef txs s []

/-! ## Preview route (src/api/execute_routes.py) -/

/-- `preview_finalize_execution`: a read-only dry run of one finalize scope
against isolated empty caches with state changes suppressed (the source passes
a single all-zero transition id where the order list goes, a fresh
`mapping_cache` and `local_mapping_cache`, `allow_state_change=False` and
`execute_await=True`). -/
def preview_finalize_execution (ef : EF) (program : Program) (fn : Ident)
    (inputs : List Value) : Except Err (List ActualOp) :=
  (ef { order := [0]
        rejected := []
        program := program
        function_name := fn
        inputs := inputs
        localIsGlobal := false
        allow_state_change := false }).mapError .executeError

/-- One entry of the `mapping_updates` array the preview route returns. -/
structure PreviewUpdate where
  type : String
  mapping_id : String
  key_id : String
  value_id : String
deriving DecidableEq

/-- The response-building loop of `preview_finalize_route`: `UpdateKeyValue`
operations become response entries; every other kind raises (`RuntimeError`
for `InitializeMapping` / `InsertKeyValue` / `RemoveMapping`,
`NotImplementedError` for `RemoveKeyValue`) instead of being included. -/
def buildPreviewUpdates : List ActualOp → Except Err (List PreviewUpdate)
  | [] => .ok []
  | op :: rest =>
    match op.type with
    | .initMapping =>
      .error (.runtimeError "InitializeMapping should not be returned by preview_finalize_execution (only used in deployments)")
    | .insertKeyValue =>
      .error (.runtimeError "InsertKeyValue should not be returned by preview_finalize_execution (only used in tests)")
    | .updateKeyValue => do
      let updates ← buildPreviewUpdates rest
      .ok ({ type := FinalizeOpType.updateKeyValue.pyName
             mapping_id := op.mapping_id
             key_id := op.key_id
             value_id := op.value_id } :: updates)
    | .removeKeyValue => .error .notImplementedError
    | .removeMapping =>
      .error (.runtimeError "RemoveMapping should not be returned by preview_finalize_execution (only used in tests)")

/-- The tail of `preview_finalize_route` once the inputs parsed: run the
preview execution — an `ExecuteError` becomes a structured client error
response (`inl`), any other fault propagates — and build the update list. -/
def previewRouteCore (ef : EF) (program : Program) (fn : Ident)
    (values : List Value) : Except Err (String ⊕ List PreviewUpdate) :=
  match preview_finalize_execution ef program fn values with
  | .error (.executeError e) =>
    .ok (.inl ("Execution error on instruction \"" ++ e.instruction ++ "\": " ++ e.msg))
  | .error e => .error e
  | .ok result => (buildPreviewUpdates result).map .inr

/-! ## Decidability and small helpers -/

deriving instance DecidableEq for Except

/-- Whether an `Except` value is a success. -/
def exceptIsOk {ε α : Type} : Except ε α → Bool
  | .ok _ => true
  | .error _ => false

/-- Kinds `execute_operations` can apply (everything except `InsertKeyValue`
and `RemoveMapping`). -/
def appliableKind (o : ActualOp) : Bool :=
  match o.type with
  | .initMapping => true
  | .updateKeyValue => true
  | .removeKeyValue => true
  | _ => false

/-! ## Concrete scenario data, used by witnesses and counterexamples -/

/-- Program `a.aleo`: one function `fa` with an empty finalize scope. -/
def progA : Program :=
  { pid := "a.aleo"
    functions := [("fa", { instructions := [], finalize := some ⟨[]⟩ })]
    mappings := [] }

/-- Program `b.aleo`: one function `fb` with an empty finalize scope. -/
def progB : Program :=
  { pid := "b.aleo"
    functions := [("fb", { instructions := [], finalize := some ⟨[]⟩ })]
    mappings := [] }

/-- Program `p.aleo`: `main` calls `a.aleo/fa` then `b.aleo/fb` (static call
order), hands both futures to its async call, and its finalize scope awaits
them in the opposite order: first the parameter holding `fb`'s future, then
`fa`'s. -/
def progP : Program :=
  { pid := "p.aleo"
    functions := [("main",
      { instructions :=
          [ .callLocator "a.aleo" "fa" 3
          , .callLocator "b.aleo" "fb" 4
          , .asyncInstr [.register 3, .register 4] ]
        finalize := some ⟨[.awaitCmd 1, .awaitCmd 0]⟩ })]
    mappings := [] }

def envC4 : Env := [("a.aleo", progA), ("b.aleo", progB), ("p.aleo", progP)]

/-- A private (non-`fee_public`) fee. -/
def privFee : Fee :=
  { transition := { id := 42, program_id := "credits.aleo", function_name := "fee", outputs := [] } }

/-- A well-formed public fee transition: the future names
`credits.aleo/fee_public`. -/
def pubFeeT : Transition :=
  { id := 42
    program_id := "credits.aleo"
    function_name := "fee_public"
    outputs := [.future (some
      { program_id := "credits.aleo", function_name := "fee_public", arguments := [] })] }

/-- The native credits program with the builtin fee function. -/
def progCredits : Program :=
  { pid := "credits.aleo"
    functions := [("fee_public", { instructions := [], finalize := some ⟨[]⟩ })]
    mappings := [] }

/-- A deployed program declaring two mappings. -/
def progD : Program := { pid := "d.aleo", functions := [], mappings := ["m1", "m2"] }

def envD : Env := [("credits.aleo", progCredits), ("d.aleo", progD)]

/-- A balance-update operation as the fee finalizer would produce it. -/
def feeOp : ActualOp :=
  { type := .updateKeyValue
    mapping_id := "credits.aleo/account"
    key_id := "k"
    value_id := "v" }

/-- An execute-transaction scenario: one transition `t7` whose last output
carries the future `p2.aleo/m2`. -/
def futMain : Future := { program_id := "p2.aleo", function_name := "m2", arguments := [] }

def prog2 : Program :=
  { pid := "p2.aleo"
    functions := [("m2", { instructions := [], finalize := some ⟨[]⟩ })]
    mappings := [] }

def t7 : Transition :=
  { id := 7, program_id := "p2.aleo", function_name := "m2", outputs := [.future (some futMain)] }

def env2 : Env := [("p2.aleo", prog2), ("credits.aleo", progCredits)]

/-- An adapter that fails the primary trace (order `[7]`) with an
`ExecuteError` at transition 7 and succeeds on any other call with one fee
operation. -/
def efRE : EF := fun c =>
  if c.order = [7] then .error { transition_id := some 7, instruction := "instr", msg := "boom" }
  else .ok [feeOp]

/-- An adapter that always succeeds with no operations. -/
def efNull : EF := fun _ => .ok []

/-- An adapter that always succeeds with one fee operation. -/
def efFee : EF := fun _ => .ok [feeOp]

/-- Rejected deploy whose expected list has one entry while the engine
produces none (private fee): a length mismatch. -/
def ctLen : CTx := .rejectedDeploy [.initMapping "x"] (.feeTx privFee)

/-- Accepted deploy whose expected mapping ids disagree with the synthesized
`InitializeMapping` operations: a pairwise mismatch. -/
def ctMismatch : CTx :=
  .acceptedDeploy [.initMapping "x", .initMapping "y"] (.deploy privFee progD)

/-- Accepted deploy whose expected list matches the synthesized operations. -/
def ctDeployOk : CTx :=
  .acceptedDeploy [.initMapping "d.aleo/m1", .initMapping "d.aleo/m2"] (.deploy privFee progD)

/-! ## Reduction lemmas for the `Except` monad -/

lemma exceptOkBind {e a b : Type} (x : a) (f : a → Except e b) :
    (Except.ok x >>= f) = f x := rfl

lemma exceptErrBind {e a b : Type} (err : e) (f : a → Except e b) :
    ((Except.error err : Except e a) >>= f) = .error err := rfl

lemma exceptMapOk {e a b : Type} (f : a → b) (x : a) :
    ((Except.ok x : Except e a).map f) = .ok (f x) := rfl

lemma exceptMapErr {e a b : Type} (f : a → b) (err : e) :
    ((Except.error err : Except e a).map f) = .error err := rfl

/-! ## Claim C3: pairwise validation characterisation -/

lemma validatePairs_cons_handled (e : ExpectedOp) (o : ActualOp) (es : List ExpectedOp)
    (os : List ActualOp) (h : handledKind e = true) :
    validatePairs (e :: es) (o :: os) = .ok () ↔
      (specPairOk e o = true ∧ validatePairs es os = .ok ()) := by
  cases e <;>
    simp only [validatePairs, specPairOk, ExpectedOp.typeOf, ExpectedOp.mappingId,
      handledKind, ne_eq, Bool.and_eq_true, decide_eq_true_eq] at h ⊢ <;>
    split_ifs <;> (simp_all; try tauto)

lemma validatePairs_cons_unhandled (e : ExpectedOp) (o : ActualOp) (es : List ExpectedOp)
    (os : List ActualOp) (h : handledKind e = false) :
    validatePairs (e :: es) (o :: os) ≠ .ok () := by
  cases e <;>
    simp only [validatePairs, specPairOk, ExpectedOp.typeOf, ExpectedOp.mappingId,
      handledKind, ne_eq, Bool.and_eq_true, decide_eq_true_eq] at h ⊢ <;>
    split_ifs <;> simp_all

/-- **C3** (amended).  For equal-length lists all of whose expected operations
are of the kinds the validation loop handles (`InitializeMapping`,
`UpdateKeyValue`, `RemoveKeyValue`), validation succeeds iff at every position
the claimed pairwise condition `specPairOk` holds — kinds equal, mapping ids
equal, key and value ids equal for `UpdateKeyValue`, key id equal for
`RemoveKeyValue`, nothing further for `InitializeMapping`.  For a position of
kind `InsertKeyValue` or `RemoveMapping` validation always fails
(`NotImplementedError`), even when all identifier fields agree — which is why
the claim's unrestricted "if and only if" is false (see the counterexample). -/
theorem validatePairs_characterisation :
    (∀ (exp : List ExpectedOp) (ops : List ActualOp),
      exp.length = ops.length →
      (∀ e ∈ exp, handledKind e = true) →
      (validatePairs exp ops = .ok () ↔
        (exp.zip ops).all (fun p => specPairOk p.1 p.2) = true))
    ∧
    (∀ (exp : List ExpectedOp) (ops : List ActualOp),
      (∃ e ∈ exp, handledKind e = false) →
      validatePairs exp ops ≠ .ok () ∨ ops.length < exp.length) := by
  constructor
  · intro exp
    induction exp with
    | nil => intro ops _ _; simp [validatePairs]
    | cons e es ih =>
      intro ops hlen hk
      match ops with
      | [] => simp at hlen
      | o :: os =>
        have hlen' : es.length = os.length := by
          simpa using hlen
        have hke : handledKind e = true := hk e (by simp)
        have hkes : ∀ x ∈ es, handledKind x = true := fun x hx => hk x (by simp [hx])
        rw [validatePairs_cons_handled e o es os hke]
        simp [ih os hlen' hkes]
  · intro exp
    induction exp with
    | nil => intro ops h; simp at h
    | cons e es ih =>
      intro ops h
      match ops with
      | [] => right; simp
      | o :: os =>
        rcases h with ⟨x, hx, hxf⟩
        rcases List.mem_cons.mp hx with rfl | hxes
        · left; exact validatePairs_cons_unhandled x o es os hxf
        · by_cases hke : handledKind e = true
          · rcases ih os ⟨x, hxes, hxf⟩ with hbad | hshort
            · left
              intro hok
              exact hbad ((validatePairs_cons_handled e o es os hke).mp hok).2
            · right; simpa using hshort
          · left
            exact validatePairs_cons_unhandled e o es os (by simpa using hke)

/-- **C3 counterexample.**  A pair of equal-length singleton lists whose
operation kinds (`InsertKeyValue`) and mapping ids agree — so the claim's
pairwise condition holds at every position — yet validation does not succeed:
the loop's `isinstance` dispatch has no case for `InsertKeyValue` and raises
`NotImplementedError`. -/
theorem validatePairs_characterisation_counterexample :
    ([ExpectedOp.insertKeyValue "m"].length = [({ type := .insertKeyValue, mapping_id := "m" } : ActualOp)].length) ∧
    (([ExpectedOp.insertKeyValue "m"].zip [({ type := .insertKeyValue, mapping_id := "m" } : ActualOp)]).all
      (fun p => specPairOk p.1 p.2) = true) ∧
    validatePairs [ExpectedOp.insertKeyValue "m"] [{ type := .insertKeyValue, mapping_id := "m" }] =
      .error .notImplementedError := by
  refine ⟨rfl, by decide, by decide⟩

/-- **C3 witness.**  The characterisation applied to a concrete matching
`UpdateKeyValue` pair. -/
theorem validatePairs_characterisation_witness :
    validatePairs [ExpectedOp.updateKeyValue "m" "k" "v"]
        [{ type := .updateKeyValue, mapping_id := "m", key_id := "k", value_id := "v" }] = .ok () ↔
      (([ExpectedOp.updateKeyValue "m" "k" "v"].zip
          [({ type := .updateKeyValue, mapping_id := "m", key_id := "k", value_id := "v" } : ActualOp)]).all
        (fun p => specPairOk p.1 p.2) = true) :=
  validatePairs_characterisation.1 _ _ (by decide) (by decide)

/-! ## Claims C7 and C10: `finalize_deploy` -/

/-- **C7.**  An accepted deploy yields the fee operations (produced by the
public-fee path when the bundled fee transition is `fee_public`, none
otherwise) followed by exactly one `InitializeMapping` operation per mapping
declared in the deployed program, in declaration order, with no rejection
reason; a rejected deploy yields the generic unavailable-detail rejection
reason. -/
theorem finalize_deploy_characterisation :
    (∀ (env : Env) (ef : EF) (expected : List ExpectedOp) (fee : Fee) (deployment : Program)
        (feeOps : List ActualOp),
      (if fee.transition.function_name = "fee_public"
        then _execute_public_fee env ef fee.transition false true = .ok feeOps
        else feeOps = []) →
      finalize_deploy env ef (.acceptedDeploy expected (.deploy fee deployment)) =
        .ok (expected, feeOps ++ deployment.mappings.map (initOpOf deployment.pid), none))
    ∧
    (∀ (env : Env) (ef : EF) (expected : List ExpectedOp) (fee : Fee) (feeOps : List ActualOp),
      (if fee.transition.function_name = "fee_public"
        then _execute_public_fee env ef fee.transition false true = .ok feeOps
        else feeOps = []) →
      finalize_deploy env ef (.rejectedDeploy expected (.feeTx fee)) =
        .ok (expected, feeOps, some "(detailed reason not available)")) := by
  constructor
  · intro env ef expected fee deployment feeOps hfee
    by_cases hfn : fee.transition.function_name = "fee_public"
    · rw [if_pos hfn] at hfee
      simp [finalize_deploy, CTx.transaction, exceptOkBind, hfn, hfee]
    · rw [if_neg hfn] at hfee
      subst hfee
      simp [finalize_deploy, CTx.transaction, exceptOkBind, hfn]
  · intro env ef expected fee feeOps hfee
    by_cases hfn : fee.transition.function_name = "fee_public"
    · rw [if_pos hfn] at hfee
      simp [finalize_deploy, CTx.transaction, CTx.finalize, exceptOkBind, hfn, hfee]
    · rw [if_neg hfn] at hfee
      subst hfee
      simp [finalize_deploy, CTx.transaction, CTx.finalize, exceptOkBind, hfn]

/-- **C7 witness.**  An accepted deploy of a program declaring two mappings,
with a public fee producing one operation: the result is the fee operation
followed by the two `InitializeMapping` operations, in declaration order, and
no rejection reason; plus the rejected counterpart, with its generic reason. -/
theorem finalize_deploy_characterisation_witness :
    finalize_deploy envD efFee (.acceptedDeploy [] (.deploy { transition := pubFeeT } progD)) =
      .ok ([], [feeOp, initOpOf "d.aleo" "m1", initOpOf "d.aleo" "m2"], none) ∧
    finalize_deploy envD efFee (.rejectedDeploy [] (.feeTx { transition := pubFeeT })) =
      .ok ([], [feeOp], some "(detailed reason not available)") := by
  constructor
  · have h := finalize_deploy_characterisation.1 envD efFee [] { transition := pubFeeT } progD
      [feeOp] (by decide)
    simpa [progD, initOpOf, mappingId] using h
  · exact finalize_deploy_characterisation.2 envD efFee [] { transition := pubFeeT } [feeOp] (by decide)

/-- **C10.**  When the bundled fee transition is not `fee_public`, no fee
operations are produced: an accepted deploy returns exactly the synthesized
`InitializeMapping` operations and a rejected deploy returns an empty
operation list (with the generic rejection reason). -/
theorem finalize_deploy_private_fee_no_ops :
    (∀ (env : Env) (ef : EF) (expected : List ExpectedOp) (fee : Fee) (deployment : Program),
      fee.transition.function_name ≠ "fee_public" →
      finalize_deploy env ef (.acceptedDeploy expected (.deploy fee deployment)) =
        .ok (expected, deployment.mappings.map (initOpOf deployment.pid), none))
    ∧
    (∀ (env : Env) (ef : EF) (expected : List ExpectedOp) (fee : Fee),
      fee.transition.function_name ≠ "fee_public" →
      finalize_deploy env ef (.rejectedDeploy expected (.feeTx fee)) =
        .ok (expected, [], some "(detailed reason not available)")) := by
  constructor
  · intro env ef expected fee deployment hfn
    simp [finalize_deploy, CTx.transaction, exceptOkBind, hfn]
  · intro env ef expected fee hfn
    simp [finalize_deploy, CTx.transaction, CTx.finalize, exceptOkBind, hfn]

/-- **C10 witness.**  A private-fee accepted deploy of the two-mapping program
and a private-fee rejected deploy. -/
theorem finalize_deploy_private_fee_no_ops_witness :
    finalize_deploy envD efFee (.acceptedDeploy [] (.deploy privFee progD)) =
      .ok ([], [initOpOf "d.aleo" "m1", initOpOf "d.aleo" "m2"], none) ∧
    finalize_deploy envD efFee (.rejectedDeploy [] (.feeTx privFee)) =
      .ok ([], [], some "(detailed reason not available)") := by
  constructor
  · have h := finalize_deploy_private_fee_no_ops.1 envD efFee [] privFee progD (by decide)
    simpa [progD, initOpOf, mappingId] using h
  · exact finalize_deploy_private_fee_no_ops.2 envD efFee [] privFee (by decide)

/-! ## Claim C8: `_execute_public_fee` -/

/-- **C8.**  `_execute_public_fee` raises a typed error whenever the fee
transition does not target `credits.aleo/fee_public`, or there is no first
output, or the first output is not a future-carrying output, or its future
value is absent; otherwise (with the future's program resolved and its
arguments loaded) it returns exactly the adapter's result for a single-call
finalize scope: order `[fee_transition.id]` and an empty already-rejected
set, with an adapter `ExecuteError` propagating as such. -/
theorem execute_public_fee_characterisation :
    (∀ (env : Env) (ef : EF) (t : Transition) (lg asc : Bool),
      t.program_id ≠ "credits.aleo" ∨ t.function_name ≠ "fee_public" →
      _execute_public_fee env ef t lg asc = .error (.typeError "not a fee transition"))
    ∧
    (∀ (env : Env) (ef : EF) (t : Transition) (lg asc : Bool),
      t.program_id = "credits.aleo" → t.function_name = "fee_public" →
      t.outputs.head? = none →
      _execute_public_fee env ef t lg asc = .error .indexError)
    ∧
    (∀ (env : Env) (ef : EF) (t : Transition) (lg asc : Bool),
      t.program_id = "credits.aleo" → t.function_name = "fee_public" →
      t.outputs.head? = some .otherOutput →
      _execute_public_fee env ef t lg asc = .error (.typeError "invalid fee transition output"))
    ∧
    (∀ (env : Env) (ef : EF) (t : Transition) (lg asc : Bool),
      t.program_id = "credits.aleo" → t.function_name = "fee_public" →
      t.outputs.head? = some (.future none) →
      _execute_public_fee env ef t lg asc = .error (.runtimeError "invalid fee transition output"))
    ∧
    (∀ (env : Env) (ef : EF) (t : Transition) (lg asc : Bool) (future : Future)
        (program : Program) (inputs : List Value),
      t.program_id = "credits.aleo" → t.function_name = "fee_public" →
      t.outputs.head? = some (.future (some future)) →
      getProgram env future.program_id = some program →
      load_input_from_arguments future.arguments = .ok inputs →
      _execute_public_fee env ef t lg asc =
        (ef { order := [t.id]
              rejected := []
              program := program
              function_name := future.function_name
              inputs := inputs
              localIsGlobal := lg
              allow_state_change := asc }).mapError .executeError) := by
  refine ⟨?_, ?_, ?_, ?_, ?_⟩
  · intro env ef t lg asc h
    rcases h with h | h <;> simp [_execute_public_fee, h]
  · intro env ef t lg asc hp hf hh
    simp [_execute_public_fee, hp, hf, hh]
  · intro env ef t lg asc hp hf hh
    simp [_execute_public_fee, hp, hf, hh]
  · intro env ef t lg asc hp hf hh
    simp [_execute_public_fee, hp, hf, hh]
  · intro env ef t lg asc future program inputs hp hf hh hprog hinp
    simp [_execute_public_fee, hp, hf, hh, hprog, hinp, exceptOkBind]

/-- **C8 witness.**  The characterisation applied to the concrete well-formed
public fee transition (positive case, adapter returning one fee operation)
and to a non-fee transition (typed-error case). -/
theorem execute_public_fee_characterisation_witness :
    _execute_public_fee env2 efFee pubFeeT false true =
      (efFee { order := [42]
               rejected := []
               program := progCredits
               function_name := "fee_public"
               inputs := []
               localIsGlobal := false
               allow_state_change := true }).mapError .executeError ∧
    _execute_public_fee env2 efFee privFee.transition false true =
      .error (.typeError "not a fee transition") := by
  constructor
  · exact execute_public_fee_characterisation.2.2.2.2 env2 efFee pubFeeT false true
      { program_id := "credits.aleo", function_name := "fee_public", arguments := [] }
      progCredits [] (by decide) (by decide) (by decide) (by decide) (by decide)
  · exact execute_public_fee_characterisation.1 env2 efFee privFee.transition false true
      (by right; decide)

/-! ## Claim C9: the preview path returns only `UpdateKeyValue` operations -/

lemma buildPreviewUpdates_ok_types (ops : List ActualOp) (updates : List PreviewUpdate)
    (h : buildPreviewUpdates ops = .ok updates) :
    ∀ u ∈ updates, u.type = "UpdateKeyValue" := by
  induction ops generalizing updates with
  | nil =>
    simp [buildPreviewUpdates] at h
    subst h; simp
  | cons op rest ih =>
    match hty : op.type with
    | .initMapping => rw [buildPreviewUpdates, hty] at h; exact absurd h (by simp)
    | .insertKeyValue => rw [buildPreviewUpdates, hty] at h; exact absurd h (by simp)
    | .removeKeyValue => rw [buildPreviewUpdates, hty] at h; exact absurd h (by simp)
    | .removeMapping => rw [buildPreviewUpdates, hty] at h; exact absurd h (by simp)
    | .updateKeyValue =>
      rw [buildPreviewUpdates, hty] at h
      cases hrest : buildPreviewUpdates rest with
      | error e => rw [hrest, exceptErrBind] at h; exact absurd h (by simp)
      | ok us =>
        rw [hrest, exceptOkBind] at h
        simp only [Except.ok.injEq] at h
        subst h
        intro u hu
        rcases List.mem_cons.mp hu with rfl | hus
        · rfl
        · exact ih us hrest u hus

/-- **C9.**  Every operation list the preview route hands back to the client
consists solely of `UpdateKeyValue` entries, and any operation of another kind
(`InitializeMapping`, `InsertKeyValue`, `RemoveKeyValue`, `RemoveMapping`)
produced by `preview_finalize_execution` makes the response-building loop
raise instead of returning a response. -/
theorem preview_returns_only_updates :
    (∀ (ef : EF) (program : Program) (fn : Ident) (values : List Value)
        (updates : List PreviewUpdate),
      previewRouteCore ef program fn values = .ok (.inr updates) →
      ∀ u ∈ updates, u.type = "UpdateKeyValue")
    ∧
    (∀ (ops : List ActualOp) (op : ActualOp),
      op ∈ ops → op.type ≠ .updateKeyValue →
      exceptIsOk (buildPreviewUpdates ops) = false) := by
  constructor
  · intro ef program fn values updates h
    unfold previewRouteCore at h
    cases hp : preview_finalize_execution ef program fn values with
    | error e =>
      rw [hp] at h
      match e with
      | .executeError e' => simp at h
      | .typeError m => simp at h
      | .runtimeError m => simp at h
      | .notImplementedError => simp at h
      | .indexError => simp at h
      | .keyError => simp at h
    | ok result =>
      rw [hp] at h
      simp only [] at h
      cases hb : buildPreviewUpdates result with
      | error e => rw [hb, exceptMapErr] at h; exact absurd h (by simp)
      | ok us =>
        rw [hb, exceptMapOk] at h
        have : us = updates := by simpa using h
        subst this
        exact buildPreviewUpdates_ok_types result us hb
  · intro ops
    induction ops with
    | nil => intro op h; simp at h
    | cons o rest ih =>
      intro op hmem hbad
      rcases List.mem_cons.mp hmem with rfl | hrest
      · match hty : op.type with
        | .updateKeyValue => exact absurd hty hbad
        | .initMapping => simp [buildPreviewUpdates, hty, exceptIsOk]
        | .insertKeyValue => simp [buildPreviewUpdates, hty, exceptIsOk]
        | .removeKeyValue => simp [buildPreviewUpdates, hty, exceptIsOk]
        | .removeMapping => simp [buildPreviewUpdates, hty, exceptIsOk]
      · match hty : o.type with
        | .initMapping => simp [buildPreviewUpdates, hty, exceptIsOk]
        | .insertKeyValue => simp [buildPreviewUpdates, hty, exceptIsOk]
        | .removeKeyValue => simp [buildPreviewUpdates, hty, exceptIsOk]
        | .removeMapping => simp [buildPreviewUpdates, hty, exceptIsOk]
        | .updateKeyValue =>
          have h' := ih op hrest hbad
          rw [buildPreviewUpdates, hty]
          cases hrest' : buildPreviewUpdates rest with
          | error e => rw [exceptErrBind]; rfl
          | ok us => rw [hrest'] at h'; exact absurd h' (by simp [exceptIsOk])

/-- **C9 witness.**  A preview whose adapter produces one `UpdateKeyValue`
operation: the route returns it, and the theorem yields its kind; and the
response builder rejects a list containing an `InitializeMapping`
operation. -/
theorem preview_returns_only_updates_witness :
    ({ type := "UpdateKeyValue", mapping_id := "m", key_id := "k", value_id := "v" } :
        PreviewUpdate).type = "UpdateKeyValue" ∧
    exceptIsOk (buildPreviewUpdates [initOpOf "d.aleo" "m1"]) = false := by
  constructor
  · exact preview_returns_only_updates.1
      (fun _ => .ok [{ type := .updateKeyValue, mapping_id := "m", key_id := "k", value_id := "v" }])
      progD "f" [] [{ type := "UpdateKeyValue", mapping_id := "m", key_id := "k", value_id := "v" }]
      (by decide) _ (by simp)
  · exact preview_returns_only_updates.2 [initOpOf "d.aleo" "m1"] (initOpOf "d.aleo" "m1")
      (by simp) (by decide)

/-! ## Claims C5 and C6: `finalize_execute` under a failing primary trace -/

/-- **C5** (amended).  For a rejected-execute transaction whose primary traced
execution fails with an `ExecuteError` naming a transition of the transaction,
`finalize_execute` discards every operation of the primary trace and returns a
rejection reason naming the failing instruction and the index of the failing
transition; the returned operation list consists solely of the fee-transition
operations executed afterwards (so it is empty exactly when the bundled fee is
not `fee_public`), not of primary-trace operations. -/
theorem finalize_execute_rejected_primary_failure :
    ∀ (fuel : Nat) (env : Env) (ef : EF) (expected : List ExpectedOp) (fee : Fee)
      (execution : Execution) (t : Transition) (future : Future) (program : Program)
      (order : List TID) (inputs : List Value) (e : ExecErr) (index : Nat)
      (feeOps : List ActualOp),
      execution.transitions.getLast? = some t →
      t.outputs ≠ [] →
      t.outputs.getLast? = some (.future (some future)) →
      getProgram env future.program_id = some program →
      build_async_order fuel env (execution.transitions.map (·.id)) program future.function_name = .ok order →
      load_input_from_arguments future.arguments = .ok inputs →
      ef { order := order
           rejected := []
           program := program
           function_name := future.function_name
           inputs := inputs
           localIsGlobal := false
           allow_state_change := false } = .error e →
      findRejectedIndex execution.transitions e.transition_id = some index →
      (if fee.transition.function_name = "fee_public"
        then _execute_public_fee env ef fee.transition false true = .ok feeOps
        else feeOps = []) →
      finalize_execute fuel env ef
          (.rejectedExecute expected (.feeTx fee) (.rejectedExecution execution)) =
        .ok (expected, feeOps, some (mkExecuteReason e index)) := by
  intro fuel env ef expected fee execution t future program order inputs e index feeOps
  intro hlast hne houts hprog horder hinp hef hidx hfee
  have hlen : t.outputs.length ≠ 0 := by
    intro h0
    exact hne (List.length_eq_zero.mp h0)
  by_cases hfn : fee.transition.function_name = "fee_public"
  · rw [if_pos hfn] at hfee
    simp [finalize_execute, CTx.finalize, CTx.isRejectedExecute, exceptOkBind, exceptErrBind,
      hlast, hlen, hne, houts, hprog, horder, hinp, hef, hidx, hfn, hfee]
  · rw [if_neg hfn] at hfee
    subst hfee
    simp [finalize_execute, CTx.finalize, CTx.isRejectedExecute, exceptOkBind, exceptErrBind,
      hlast, hlen, hne, houts, hprog, horder, hinp, hef, hidx, hfn]

/-- **C5 counterexample.**  A rejected-execute transaction whose primary trace
fails and whose bundled fee is public: the rejection reason correctly names
transition index 0 and the failing instruction, but the returned operation
list is the fee's operation list `[feeOp]`, not the empty list the claim
requires. -/
theorem finalize_execute_rejected_primary_failure_counterexample :
    finalize_execute 10 env2 efRE
        (.rejectedExecute [] (.feeTx { transition := pubFeeT })
          (.rejectedExecution { transitions := [t7] })) =
      .ok ([], [feeOp], some "execute error: boom, at transition #0, instruction \"instr\"") ∧
    ([feeOp] : List ActualOp) ≠ [] := by
  exact ⟨by decide, by decide⟩

/-- **C5 witness.**  The amended statement applied to the private-fee variant
of the same scenario: no fee operations, so the returned list is empty, with
the same rejection reason. -/
theorem finalize_execute_rejected_primary_failure_witness :
    finalize_execute 10 env2 efRE
        (.rejectedExecute [] (.feeTx privFee) (.rejectedExecution { transitions := [t7] })) =
      .ok ([], [], some (mkExecuteReason { transition_id := some 7, instruction := "instr", msg := "boom" } 0)) :=
  finalize_execute_rejected_primary_failure 10 env2 efRE [] privFee
    { transitions := [t7] } t7 futMain prog2 [7] []
    { transition_id := some 7, instruction := "instr", msg := "boom" } 0 []
    (by decide) (by decide) (by decide) (by decide) (by decide) (by decide)
    (by decide) (by decide) (by decide)

/-- **C6** (amended).  For an accepted-execute transaction, an `ExecuteError`
raised while executing the traced finalize order does *not* abort
finalization: the same handler as in the rejected case catches it, discards
the primary operations, forms the rejection reason from the failing
instruction and transition index, and `finalize_execute` returns normally
(with the fee operations, when a public fee is present). -/
theorem finalize_execute_accepted_error_recovered :
    ∀ (fuel : Nat) (env : Env) (ef : EF) (expected : List ExpectedOp)
      (feeOpt : Option Fee) (execution : Execution) (t : Transition) (future : Future)
      (program : Program) (order : List TID) (inputs : List Value) (e : ExecErr)
      (index : Nat) (feeOps : List ActualOp),
      execution.transitions.getLast? = some t →
      t.outputs ≠ [] →
      t.outputs.getLast? = some (.future (some future)) →
      getProgram env future.program_id = some program →
      build_async_order fuel env (execution.transitions.map (·.id)) program future.function_name = .ok order →
      load_input_from_arguments future.arguments = .ok inputs →
      ef { order := order
           rejected := []
           program := program
           function_name := future.function_name
           inputs := inputs
           localIsGlobal := true
           allow_state_change := true } = .error e →
      findRejectedIndex execution.transitions e.transition_id = some index →
      (match feeOpt with
       | none => feeOps = []
       | some f =>
         if f.transition.function_name = "fee_public"
           then _execute_public_fee env ef f.transition true true = .ok feeOps
           else feeOps = []) →
      finalize_execute fuel env ef (.acceptedExecute expected (.execute execution feeOpt)) =
        .ok (expected, feeOps, some (mkExecuteReason e index)) := by
  intro fuel env ef expected feeOpt execution t future program order inputs e index feeOps
  intro hlast hne houts hprog horder hinp hef hidx hfee
  have hlen : t.outputs.length ≠ 0 := by
    intro h0
    exact hne (List.length_eq_zero.mp h0)
  match feeOpt with
  | none =>
    simp only [] at hfee
    subst hfee
    simp [finalize_execute, CTx.finalize, CTx.isRejectedExecute, exceptOkBind, exceptErrBind,
      hlast, hlen, hne, houts, hprog, horder, hinp, hef, hidx]
  | some f =>
    simp only [] at hfee
    by_cases hfn : f.transition.function_name = "fee_public"
    · rw [if_pos hfn] at hfee
      simp [finalize_execute, CTx.finalize, CTx.isRejectedExecute, exceptOkBind, exceptErrBind,
        hlast, hlen, hne, houts, hprog, horder, hinp, hef, hidx, hfn, hfee]
    · rw [if_neg hfn] at hfee
      subst hfee
      simp [finalize_execute, CTx.finalize, CTx.isRejectedExecute, exceptOkBind, exceptErrBind,
        hlast, hlen, hne, houts, hprog, horder, hinp, hef, hidx, hfn]

/-- **C6 counterexample.**  An accepted-execute transaction whose adapter
fails with an `ExecuteError`: `finalize_execute` returns normally, with the
error recovered into a rejection reason — it does not propagate the fault as
the claim requires. -/
theorem finalize_execute_accepted_error_recovered_counterexample :
    finalize_execute 10 env2 efRE (.acceptedExecute [] (.execute { transitions := [t7] } none)) =
      .ok ([], [], some "execute error: boom, at transition #0, instruction \"instr\"") ∧
    (Except.ok (([] : List ExpectedOp), ([] : List ActualOp),
        some "execute error: boom, at transition #0, instruction \"instr\"") : Except Err _) ≠
      .error (.executeError { transition_id := some 7, instruction := "instr", msg := "boom" }) := by
  exact ⟨by decide, by decide⟩

/-- **C6 witness.**  The amended statement applied to an accepted execute with
a public fee: the recovered reason is returned together with the fee's
operations. -/
theorem finalize_execute_accepted_error_recovered_witness :
    finalize_execute 10 env2 efRE
        (.acceptedExecute [] (.execute { transitions := [t7] } (some { transition := pubFeeT }))) =
      .ok ([], [feeOp], some (mkExecuteReason { transition_id := some 7, instruction := "instr", msg := "boom" } 0)) :=
  finalize_execute_accepted_error_recovered 10 env2 efRE [] (some { transition := pubFeeT })
    { transitions := [t7] } t7 futMain prog2 [7] []
    { transition_id := some 7, instruction := "instr", msg := "boom" } 0 [feeOp]
    (by decide) (by decide) (by decide) (by decide) (by decide) (by decide)
    (by decide) (by decide) (by decide)

/-! ## Claims C1 and C2: the block finalizer's validation and commit discipline -/

lemma execute_operations_mono (ops journal : List ActualOp) :
    ∃ t, (execute_operations journal ops).1 = journal ++ t := by
  induction ops generalizing journal with
  | nil => exact ⟨[], by simp [execute_operations]⟩
  | cons op rest ih =>
    match hty : op.type with
    | .initMapping =>
      rcases ih (journal ++ [op]) with ⟨t, ht⟩
      exact ⟨[op] ++ t, by simp [execute_operations, hty, ht]⟩
    | .updateKeyValue =>
      rcases ih (journal ++ [op]) with ⟨t, ht⟩
      exact ⟨[op] ++ t, by simp [execute_operations, hty, ht]⟩
    | .removeKeyValue =>
      rcases ih (journal ++ [op]) with ⟨t, ht⟩
      exact ⟨[op] ++ t, by simp [execute_operations, hty, ht]⟩
    | .insertKeyValue => exact ⟨[], by simp [execute_operations, hty]⟩
    | .removeMapping => exact ⟨[], by simp [execute_operations, hty]⟩

lemma execute_operations_all_good (ops journal : List ActualOp)
    (h : ∀ o ∈ ops, appliableKind o = true) :
    execute_operations journal ops = (journal ++ ops, .ok ()) := by
  induction ops generalizing journal with
  | nil => simp [execute_operations]
  | cons op rest ih =>
    have hop : appliableKind op = true := h op (by simp)
    have hrest : ∀ o ∈ rest, appliableKind o = true := fun o ho => h o (by simp [ho])
    match hty : op.type with
    | .initMapping => simp [execute_operations, hty, ih (journal ++ [op]) hrest]
    | .updateKeyValue => simp [execute_operations, hty, ih (journal ++ [op]) hrest]
    | .removeKeyValue => simp [execute_operations, hty, ih (journal ++ [op]) hrest]
    | .insertKeyValue => rw [appliableKind, hty] at hop; exact absurd hop (by simp)
    | .removeMapping => rw [appliableKind, hty] at hop; exact absurd hop (by simp)

lemma validatePairs_ok_appliable (exp : List ExpectedOp) (ops : List ActualOp)
    (hok : validatePairs exp ops = .ok ()) (hlen : exp.length = ops.length) :
    ∀ o ∈ ops, appliableKind o = true := by
  induction exp generalizing ops with
  | nil =>
    match ops with
    | [] => intro o ho; simp at ho
    | _ :: _ => simp at hlen
  | cons e es ih =>
    match ops with
    | [] => simp at hlen
    | o :: os =>
      by_cases hke : handledKind e = true
      · have h := (validatePairs_cons_handled e o es os hke).mp hok
        have hty : e.typeOf = o.type := by
          have := h.1
          simp only [specPairOk, Bool.and_eq_true, decide_eq_true_eq] at this
          exact this.1.1
        intro x hx
        rcases List.mem_cons.mp hx with rfl | hxs
        · cases e <;> simp_all [appliableKind, handledKind, ExpectedOp.typeOf, ← hty]
        · exact ih os h.2 (by simpa using hlen) x hxs
      · exact absurd hok
          (validatePairs_cons_unhandled e o es os (by simpa using hke))

lemma stepTx_committed_mono (fuel : Nat) (env : Env) (ef : EF) (ct : CTx) (s s' : BState)
    (r : Except Err (Option String)) (h : stepTx fuel env ef ct s = (s', r)) :
    ∃ t, s'.committed = s.committed ++ t := by
  unfold stepTx at h
  cases htx : txFinalizer fuel env ef ct with
  | error e =>
    rw [htx] at h
    cases h
    exact ⟨[], by simp⟩
  | ok res =>
    obtain ⟨exp₀, ops₀, reason₀⟩ := res
    rw [htx] at h
    simp only [] at h
    by_cases hlen : exp₀.length ≠ ops₀.length
    · rw [if_pos hlen] at h
      cases h
      exact ⟨[], by simp⟩
    · rw [if_neg hlen] at h
      cases hval : validatePairs exp₀ ops₀ with
      | error err =>
        rw [hval] at h
        cases err <;> cases h <;> exact ⟨[], by simp⟩
      | ok u =>
        cases u
        rw [hval] at h
        simp only [] at h
        rcases execute_operations_mono ops₀ s.committed with ⟨t, ht⟩
        cases hex : execute_operations s.committed ops₀ with
        | mk journal result =>
          rw [hex] at h ht
          cases result <;> cases h <;> exact ⟨t, ht⟩

/-- The step for one transaction clears the process-wide cache exactly when
the pairwise validation fails with a `TypeError`, and propagates that error. -/
lemma stepTx_clears_cache (fuel : Nat) (env : Env) (ef : EF) (ct : CTx) (s : BState)
    (exp : List ExpectedOp) (ops : List ActualOp) (reason : Option String) (m : String)
    (htx : txFinalizer fuel env ef ct = .ok (exp, ops, reason))
    (hlen : exp.length = ops.length)
    (hval : validatePairs exp ops = .error (.typeError m)) :
    stepTx fuel env ef ct s = ({ s with cache := [] }, .error (.typeError m)) := by
  unfold stepTx
  rw [htx]
  simp only []
  rw [if_neg (by simp [hlen]), hval]

lemma finalizeBlockLoop_append (fuel : Nat) (env : Env) (ef : EF) (pre post : List CTx)
    (s : BState) (reasons : List (Option String)) :
    finalizeBlockLoop fuel env ef (pre ++ post) s reasons =
      (match finalizeBlockLoop fuel env ef pre s reasons with
       | (s₁, .ok reasons₁) => finalizeBlockLoop fuel env ef post s₁ reasons₁
       | (s₁, .error e) => (s₁, .error e)) := by
  induction pre generalizing s reasons with
  | nil => simp [finalizeBlockLoop]
  | cons ct rest ih =>
    show finalizeBlockLoop fuel env ef (ct :: (rest ++ post)) s reasons = _
    cases hstep : stepTx fuel env ef ct s with
    | mk s' r =>
      cases r with
      | error e => simp only [finalizeBlockLoop, hstep]
      | ok reason =>
        simp only [finalizeBlockLoop, hstep]
        exact ih s' (reasons ++ [reason])

/-- **C1** (amended).  A *pairwise* validation mismatch — operation kind,
mapping id, key id, or value id — clears the process-wide mapping cache
before the `TypeError` propagates out of `finalize_block`, wherever in the
block the faulting transaction sits.  (A *length* mismatch, by contrast,
raises its `TypeError` outside the `except TypeError` handler and propagates
with the cache left intact — see the counterexample.) -/
theorem finalize_block_mismatch_clears_cache :
    (∀ (fuel : Nat) (env : Env) (ef : EF) (ct : CTx) (s : BState)
        (exp : List ExpectedOp) (ops : List ActualOp) (reason : Option String) (m : String),
      txFinalizer fuel env ef ct = .ok (exp, ops, reason) →
      exp.length = ops.length →
      validatePairs exp ops = .error (.typeError m) →
      stepTx fuel env ef ct s = ({ s with cache := [] }, .error (.typeError m)))
    ∧
    (∀ (fuel : Nat) (env : Env) (ef : EF) (pre : List CTx) (ct : CTx) (rest : List CTx)
        (s : BState) (reasons : List (Option String)) (s₁ : BState)
        (reasons₁ : List (Option String)) (exp : List ExpectedOp) (ops : List ActualOp)
        (reason : Option String) (m : String),
      finalizeBlockLoop fuel env ef pre s reasons = (s₁, .ok reasons₁) →
      txFinalizer fuel env ef ct = .ok (exp, ops, reason) →
      exp.length = ops.length →
      validatePairs exp ops = .error (.typeError m) →
      finalizeBlockLoop fuel env ef (pre ++ ct :: rest) s reasons =
        ({ s₁ with cache := [] }, .error (.typeError m))) := by
  constructor
  · intro fuel env ef ct s exp ops reason m htx hlen hval
    exact stepTx_clears_cache fuel env ef ct s exp ops reason m htx hlen hval
  · intro fuel env ef pre ct rest s reasons s₁ reasons₁ exp ops reason m hpre htx hlen hval
    rw [finalizeBlockLoop_append, hpre]
    simp only [finalizeBlockLoop]
    rw [stepTx_clears_cache fuel env ef ct s₁ exp ops reason m htx hlen hval]

/-- **C1 counterexample.**  A block whose sole transaction has a *length*
mismatch between expected and actual operations: `finalize_block` propagates
the `TypeError` but the process-wide cache (here holding the token `5`) is
*not* cleared, contradicting the claim that any detected mismatch — including
a length mismatch — clears the cache before the fault propagates. -/
theorem finalize_block_mismatch_clears_cache_counterexample :
    finalize_block 10 envD efNull [ctLen] { cache := [5], committed := [] } =
      ({ cache := [5], committed := [] }, .error (.typeError "invalid finalize operation length")) ∧
    ([5] : List Nat) ≠ [] := by
  exact ⟨by decide, by decide⟩

/-- **C1 witness.**  The amended statement applied to a block whose only
transaction's synthesized `InitializeMapping` operations disagree with the
expected mapping ids: the cache `[5]` is cleared and the `TypeError`
propagates. -/
theorem finalize_block_mismatch_clears_cache_witness :
    finalizeBlockLoop 10 envD efNull ([] ++ ctMismatch :: []) { cache := [5], committed := [] } [] =
      ({ cache := [], committed := [] }, .error (.typeError "invalid finalize mapping id")) :=
  finalize_block_mismatch_clears_cache.2 10 envD efNull [] ctMismatch []
    { cache := [5], committed := [] } [] { cache := [5], committed := [] } []
    [.initMapping "x", .initMapping "y"]
    [initOpOf "d.aleo" "m1", initOpOf "d.aleo" "m2"] none "invalid finalize mapping id"
    (by decide) (by decide) (by decide) (by decide)

/-- **C2.**  `execute_operations` is reached only for a transaction whose
actual operation list passed validation in full (equal length and every
pairwise check): the step commits exactly that validated list and completes
normally, the journal is only ever extended, and an error in a later
transaction leaves the storage journal of earlier transactions in place (the
prior journal is always a prefix of the final one, transaction by
transaction). -/
theorem finalize_block_commit_discipline :
    (∀ (fuel : Nat) (env : Env) (ef : EF) (ct : CTx) (s s' : BState)
        (r : Except Err (Option String)),
      stepTx fuel env ef ct s = (s', r) →
      (s'.committed.take s.committed.length = s.committed) ∧
      (∀ exp ops reason, txFinalizer fuel env ef ct = .ok (exp, ops, reason) →
        exp.length = ops.length → validatePairs exp ops = .ok () →
        s' = { s with committed := s.committed ++ ops } ∧ r = .ok reason) ∧
      (∀ exp ops reason, txFinalizer fuel env ef ct = .ok (exp, ops, reason) →
        (exp.length ≠ ops.length ∨ validatePairs exp ops ≠ .ok ()) →
        s'.committed = s.committed))
    ∧
    (∀ (fuel : Nat) (env : Env) (ef : EF) (txs : List CTx) (s : BState)
        (reasons : List (Option String)),
      (finalizeBlockLoop fuel env ef txs s reasons).1.committed.take s.committed.length =
        s.committed) := by
  constructor
  · intro fuel env ef ct s s' r h
    refine ⟨?_, ?_, ?_⟩
    · rcases stepTx_committed_mono fuel env ef ct s s' r h with ⟨t, ht⟩
      rw [ht]
      exact List.take_left _ _
    · intro exp ops reason htx hlen hval
      unfold stepTx at h
      rw [htx] at h
      simp only [] at h
      rw [if_neg (by simp [hlen]), hval] at h
      simp only [] at h
      rw [execute_operations_all_good ops s.committed
        (validatePairs_ok_appliable exp ops hval hlen)] at h
      cases h
      exact ⟨rfl, rfl⟩
    · intro exp ops reason htx hbad
      unfold stepTx at h
      rw [htx] at h
      simp only [] at h
      rcases hbad with hbad | hbad
      · rw [if_pos hbad] at h
        cases h
        rfl
      · by_cases hlen : exp.length ≠ ops.length
        · rw [if_pos hlen] at h
          cases h
          rfl
        · rw [if_neg hlen] at h
          cases hval : validatePairs exp ops with
          | ok u => cases u; exact absurd hval hbad
          | error err =>
            rw [hval] at h
            cases err <;> cases h <;> rfl
  · intro fuel env ef txs
    induction txs with
    | nil => intro s reasons; simp [finalizeBlockLoop]
    | cons ct rest ih =>
      intro s reasons
      rw [finalizeBlockLoop]
      cases hstep : stepTx fuel env ef ct s with
      | mk s₁ r =>
        rcases stepTx_committed_mono fuel env ef ct s s₁ r hstep with ⟨t, ht⟩
        cases r with
        | error e =>
          simp only []
          rw [ht]
          exact List.take_left _ _
        | ok reason =>
          simp only []
          have hih := ih s₁ (reasons ++ [reason])
          have hle : s.committed.length ≤ s₁.committed.length := by
            rw [ht]; simp
          calc (finalizeBlockLoop fuel env ef rest s₁ (reasons ++ [reason])).1.committed.take
                s.committed.length
              = ((finalizeBlockLoop fuel env ef rest s₁ (reasons ++ [reason])).1.committed.take
                  s₁.committed.length).take s.committed.length := by
                rw [List.take_take, Nat.min_eq_left hle]
            _ = s₁.committed.take s.committed.length := by rw [hih]
            _ = s.committed := by rw [ht]; exact List.take_left _ _

/-- **C2 witness.**  The discipline applied to a block state with cache `[5]`
and an empty journal, stepping an accepted deploy whose expected operations
match: the step commits exactly the two validated `InitializeMapping`
operations and returns the transaction's (absent) rejection reason. -/
theorem finalize_block_commit_discipline_witness :
    ({ cache := [5], committed := [initOpOf "d.aleo" "m1", initOpOf "d.aleo" "m2"] } : BState) =
      { ({ cache := [5], committed := [] } : BState) with
        committed := [] ++ [initOpOf "d.aleo" "m1", initOpOf "d.aleo" "m2"] } ∧
    (Except.ok (none : Option String) : Except Err (Option String)) = .ok none :=
  ((finalize_block_commit_discipline.1 10 envD efNull ctDeployOk
      { cache := [5], committed := [] }
      { cache := [5], committed := [initOpOf "d.aleo" "m1", initOpOf "d.aleo" "m2"] }
      (.ok none) (by decide)).2.1
    [.initMapping "d.aleo/m1", .initMapping "d.aleo/m2"]
    [initOpOf "d.aleo" "m1", initOpOf "d.aleo" "m2"] none
    (by decide) (by decide) (by decide))

/-! ## Claim C4: `build_async_order` follows await order, depth-first -/

lemma traceAwaitsWith_mono (rec : CGNode × TID → List TID → Except Err (List TID))
    (hrec : ∀ c a r, rec c a = .ok r → ∃ t, r = a ++ t) :
    ∀ (cmds : List Command) (fin : RegMap) (acc l : List TID),
      traceAwaitsWith rec cmds fin acc = .ok l → ∃ t, l = acc ++ t := by
  intro cmds
  induction cmds with
  | nil =>
    intro fin acc l h
    simp only [traceAwaitsWith, Except.ok.injEq] at h
    exact ⟨[], by simp [← h]⟩
  | cons cmd rest ih =>
    intro fin acc l h
    match cmd with
    | .otherCmd =>
      simp only [traceAwaitsWith] at h
      exact ih fin acc l h
    | .awaitCmd loc =>
      simp only [traceAwaitsWith] at h
      cases hlk : alookup fin loc with
      | none => rw [hlk] at h; simp at h
      | some child =>
        rw [hlk] at h
        simp only [] at h
        cases hr : rec child (acc ++ [child.2]) with
        | error e => rw [hr, exceptErrBind] at h; simp at h
        | ok acc' =>
          rw [hr, exceptOkBind] at h
          rcases hrec child _ acc' hr with ⟨t1, ht1⟩
          rcases ih fin acc' l h with ⟨t2, ht2⟩
          exact ⟨[child.2] ++ t1 ++ t2, by rw [ht2, ht1]; simp⟩

lemma _trace_execution_mono :
    ∀ (fuel : Nat) (env : Env) (tids : List TID) (program : Program) (fn : Ident)
      (node : CGNode) (acc l : List TID),
      _trace_execution env tids fuel program fn node acc = .ok l → ∃ t, l = acc ++ t := by
  intro fuel
  induction fuel with
  | zero =>
    intro env tids program fn node acc l h
    simp [_trace_execution] at h
  | succ fuel ih =>
    intro env tids program fn node acc l h
    rw [_trace_execution] at h
    unfold traceStep at h
    cases hassign : assignTids tids node.calls with
    | error e => rw [hassign, exceptErrBind] at h; simp at h
    | ok children =>
      rw [hassign, exceptOkBind] at h
      cases hfn : alookup program.functions fn with
      | none => rw [hfn] at h; simp at h
      | some function =>
        rw [hfn] at h
        simp only [] at h
        cases hfin : function.finalize with
        | none =>
          rw [hfin] at h
          simp only [Except.ok.injEq] at h
          exact ⟨[], by simp [← h]⟩
        | some fin =>
          rw [hfin] at h
          simp only [] at h
          cases hmaps : instrWalk env children function.instructions 0 [] [] with
          | error e => rw [hmaps, exceptErrBind] at h; simp at h
          | ok maps =>
            rw [hmaps, exceptOkBind] at h
            refine traceAwaitsWith_mono _ ?_ fin.commands maps.2 acc l h
            intro c a r hr
            simp only [] at hr
            cases hg : getProgram env c.1.name.1 with
            | none => rw [hg] at hr; simp at hr
            | some cp =>
              rw [hg] at hr
              simp only [] at hr
              cases hf : alookup cp.functions c.1.name.2 with
              | none => rw [hf] at hr; simp at hr
              | some f =>
                rw [hf] at hr
                exact ih env tids cp c.1.name.2 c.1 a r hr

/-- **C4.**  The order `build_async_order` returns begins with the outermost
transition's id — the last element of the (non-empty) transition-id list —
and the await walk is depth-first per `await` command: tracing only ever
appends to the accumulated order, and at each `await` the awaited child's
transition id is appended first, the child's own function is then traced to
completion, and only the resulting order is handed to the remaining awaits of
the current scope. -/
theorem build_async_order_depth_first :
    (∀ (fuel : Nat) (env : Env) (tids : List TID) (program : Program) (fn : Ident)
        (order : List TID),
      tids ≠ [] →
      build_async_order fuel env tids program fn = .ok order →
      order.head? = tids.getLast?)
    ∧
    (∀ (rec : CGNode × TID → List TID → Except Err (List TID)) (loc : Nat)
        (rest : List Command) (fin : RegMap) (acc l : List TID),
      traceAwaitsWith rec (.awaitCmd loc :: rest) fin acc = .ok l →
      ∃ child mid, alookup fin loc = some child ∧
        rec child (acc ++ [child.2]) = .ok mid ∧
        traceAwaitsWith rec rest fin mid = .ok l)
    ∧
    (∀ (fuel : Nat) (env : Env) (tids : List TID) (program : Program) (fn : Ident)
        (node : CGNode) (acc l : List TID),
      _trace_execution env tids fuel program fn node acc = .ok l →
      l.take acc.length = acc) := by
  refine ⟨?_, ?_, ?_⟩
  · intro fuel env tids program fn order hne h
    unfold build_async_order at h
    cases hcg : call_graph fuel env program fn with
    | error e => rw [hcg, exceptErrBind] at h; simp at h
    | ok cg =>
      rw [hcg, exceptOkBind] at h
      cases hlast : tids.getLast? with
      | none => rw [hlast] at h; simp at h
      | some last =>
        rw [hlast] at h
        simp only [] at h
        rcases _trace_execution_mono fuel env tids program fn _ [last] order h with ⟨t, ht⟩
        rw [ht]
        rfl
  · intro rec loc rest fin acc l h
    simp only [traceAwaitsWith] at h
    cases hlk : alookup fin loc with
    | none => rw [hlk] at h; simp at h
    | some child =>
      rw [hlk] at h
      simp only [] at h
      cases hr : rec child (acc ++ [child.2]) with
      | error e => rw [hr, exceptErrBind] at h; simp at h
      | ok mid =>
        rw [hr, exceptOkBind] at h
        exact ⟨child, mid, rfl, hr, h⟩
  · intro fuel env tids program fn node acc l h
    rcases _trace_execution_mono fuel env tids program fn node acc l h with ⟨t, ht⟩
    rw [ht]
    exact List.take_left _ _

/-- **C4 witness.**  The scenario of the spec's depth-first property: `p.aleo/main`
statically calls `a.aleo/fa` then `b.aleo/fb`, but its finalize scope awaits
`fb`'s future first.  With transition ids `[100, 101, 102]` (children in call
order, root last) the traced order is `[102, 101, 100]` — root first, then the
awaited children in await order, not call order — and the theorem yields that
the head of the order is the input list's last element. -/
theorem build_async_order_depth_first_witness :
    build_async_order 10 envC4 [100, 101, 102] progP "main" = .ok [102, 101, 100] ∧
    ([102, 101, 100] : List TID).head? = ([100, 101, 102] : List TID).getLast? := by
  constructor
  · decide
  · exact build_async_order_depth_first.1 10 envC4 [100, 101, 102] progP "main"
      [102, 101, 100] (by decide) (by decide)
